import Mathlib

/-!
Verification of the resolver core of the friends-lang repository
(`src/try-friends/src/core/evaluating.ts` together with the AST declarations).

The TypeScript source is embedded shallowly:

* `Term`, `PredProp`, `Proposition` (the source's `Prop`, renamed because
  `Prop` is reserved in Lean), `Rule`, `Knowledge`, `Env` mirror the data
  declarations of `ast.ts`.
* `Env` is the nested map `varName → varId → Term` of the source, embedded
  as a function keyed by the pair `(varName, varId)` — observationally the
  same structure under `tryFind` and `bind`.
* `Env.substitute`, `Env.bind` and `Env.tryUnify` are general recursive in
  the source (the engine has no occurs check, so a binding such as
  `X ↦ f(X)` makes `substitute` diverge).  They are embedded with an
  explicit fuel parameter (`substituteN`, `bindN`, `tryUnifyN`); the value
  `none` means the fuel ran out, `some r` means the source computation
  terminates with result `r`.  All theorems about them quantify over the
  fuel, so they speak about exactly the terminating runs of the source.
* The prover (`provePred` / `proveProp`, TypeScript generators) is embedded
  as fueled functions producing the full finite list of yielded results,
  threading the global `nextVarId` counter explicitly.
-/

namespace Friends

/-- `VarId` of `ast.ts` (a TypeScript `number`; the test harness uses `-1`). -/
abbrev VarId := Int

/-- `Var` of `ast.ts`: a variable, identified by the pair (name, id). -/
structure Var where
  varId : VarId
  varName : String
deriving DecidableEq, Repr

/-- `Term` of `ast.ts`: variable, atom, unary application, or cons cell. -/
inductive Term where
  | var (v : Var)
  | atom (a : String)
  | app (f : String) (x : Term)
  | cons (head tail : Term)
deriving DecidableEq, Repr

/-- `nilTerm` of `ast.ts`. -/
def nilTerm : Term := Term.atom "nil"

/-- `PredProp` of `ast.ts`: a predicate applied to a term. -/
structure PredProp where
  pred : String
  term : Term
deriving DecidableEq, Repr

/-- `Prop` of `ast.ts` (renamed: `Prop` is reserved in Lean): an atomic
predicate application or a conjunction. -/
inductive Proposition where
  | pred (p : PredProp)
  | conj (left right : Proposition)
deriving DecidableEq, Repr

/-- `CutProp` of `ast.ts`: the `!` operator. -/
def CutProp : PredProp := ⟨"!", nilTerm⟩

/-- `TrueProp` of `ast.ts`. -/
def TrueProp : PredProp := ⟨"true", nilTerm⟩

/-- `Rule` of `ast.ts`: a head with an optional goal. -/
structure Rule where
  head : PredProp
  goal : Option Proposition := none
deriving DecidableEq, Repr

/-- `Term.vars` of `evaluating.ts`: variables in left-to-right occurrence
order, duplicates allowed. -/
def Term.vars : Term → List Var
  | .var v => [v]
  | .atom _ => []
  | .app _ x => x.vars
  | .cons h t => h.vars ++ t.vars

/-- `Term.withVarId` of `evaluating.ts`: replace every variable's id,
keeping names and structure. -/
def Term.withVarId : Term → VarId → Term
  | .var v, id => .var ⟨id, v.varName⟩
  | .atom a, _ => .atom a
  | .app f x, id => .app f (x.withVarId id)
  | .cons h t, id => .cons (h.withVarId id) (t.withVarId id)

/-- `Prop.withVarId` of `evaluating.ts`, on the atomic case. -/
def PredProp.withVarId (p : PredProp) (id : VarId) : PredProp :=
  ⟨p.pred, p.term.withVarId id⟩

/-- `Prop.withVarId` of `evaluating.ts`. -/
def Proposition.withVarId : Proposition → VarId → Proposition
  | .pred p, id => .pred (p.withVarId id)
  | .conj l r, id => .conj (l.withVarId id) (r.withVarId id)

/-- `Prop.vars` of `evaluating.ts`. -/
def Proposition.vars : Proposition → List Var
  | .pred p => p.term.vars
  | .conj l r => l.vars ++ r.vars

/-- `Rule.refresh` of `evaluating.ts`.  The source draws the id from the
process-wide `nextVarId` counter; the embedding passes the drawn id
explicitly (the counter itself is threaded by the prover). -/
def Rule.refresh (r : Rule) (id : VarId) : Rule :=
  ⟨r.head.withVarId id, r.goal.map (·.withVarId id)⟩

/-- `Knowledge` of `ast.ts`: a map from predicate name to list of rules
(`none` for a name that was never asserted). -/
abbrev Knowledge := String → Option (List Rule)

/-- `Knowledge.default` of `evaluating.ts`: the empty object. -/
def Knowledge.default : Knowledge := fun _ => none

/-- `Knowledge.assume` of `evaluating.ts`: append the rule to the list
stored under its head's predicate name (spread copy of the object). -/
def Knowledge.assume (k : Knowledge) (r : Rule) : Knowledge :=
  fun p => if p = r.head.pred then some ((k r.head.pred).getD [] ++ [r]) else k p

/-- `Knowledge.assumeMany` of `evaluating.ts`. -/
def Knowledge.assumeMany (k : Knowledge) (rs : List Rule) : Knowledge :=
  rs.foldl Knowledge.assume k

/-- `Knowledge.rules` of `evaluating.ts`: `knowledge[predName] || []`. -/
def Knowledge.rules (k : Knowledge) (predName : String) : List Rule :=
  (k predName).getD []

/-- `Env` of `ast.ts`: the nested map `varName → varId → Term`, embedded as
a finite partial function on the key pair. -/
abbrev Env := Var → Option Term

/-- `Env.default` of `evaluating.ts`. -/
def Env.default : Env := fun _ => none

/-- `Env.tryFind` of `evaluating.ts`: direct lookup by (name, id), no walk. -/
def Env.tryFind (env : Env) (v : Var) : Option Term := env v

/-- The map-update part of `Env.bind` (spread copy with the slot for
`(v.varName, v.varId)` replaced). -/
def Env.insert (env : Env) (v : Var) (t : Term) : Env :=
  fun w => if w = v then some t else env w

/-- `Env.substitute` of `evaluating.ts`, with fuel.  One unit of fuel is
spent on every recursive call; `none` means the fuel ran out. -/
def substituteN : Nat → Env → Term → Option Term
  | 0, _, _ => none
  | n + 1, env, t =>
    match t with
    | .var v =>
      match Env.tryFind env v with
      | none => some (.var v)
      | some bound => substituteN n env bound
    | .atom a => some (.atom a)
    | .app f x => (substituteN n env x).map (Term.app f)
    | .cons h tl =>
      match substituteN n env h, substituteN n env tl with
      | some h', some tl' => some (.cons h' tl')
      | _, _ => none

/-- `Env.bind` of `evaluating.ts`, with fuel for the embedded `substitute`
call: substitute the term first, refuse the insertion (returning the
environment unchanged) when the result is `Var(v)` itself. -/
def bindN (n : Nat) (env : Env) (v : Var) (term : Term) : Option Env :=
  match substituteN n env term with
  | none => none
  | some st =>
    if st = Term.var v then some env
    else some (Env.insert env v st)

/-- `Env.tryUnify` of `evaluating.ts`, with fuel.  The helper
`tryUnifyVar` of the source is inlined into the two variable cases.
`none` means the fuel ran out; `some none` is a unification failure;
`some (some env)` is success. -/
def tryUnifyN : Nat → Env → Term → Term → Option (Option Env)
  | 0, _, _, _ => none
  | n + 1, env, lTerm, rTerm =>
    match lTerm, rTerm with
    | .var v, _ =>
      match Env.tryFind env v with
      | none => (bindN n env v rTerm).map some
      | some bound =>
        match substituteN n env bound with
        | none => none
        | some sb => tryUnifyN n env rTerm sb
    | _, .var v =>
      match Env.tryFind env v with
      | none => (bindN n env v lTerm).map some
      | some bound =>
        match substituteN n env bound with
        | none => none
        | some sb => tryUnifyN n env lTerm sb
    | .atom a, .atom b => if a = b then some (some env) else some none
    | .app f x, .app g y => if f = g then tryUnifyN n env x y else some none
    | .cons h1 t1, .cons h2 t2 =>
      match tryUnifyN n env h1 h2 with
      | none => none
      | some none => some none
      | some (some env2) => tryUnifyN n env2 t1 t2
    | _, _ => some none

/-- `Assignment` of `ast.ts` as used by `query` in `evaluating.ts`: either a
variable name marked unbound, or a name together with its substituted term. -/
inductive Assignment where
  | unbound (varName : String)
  | bound (varName : String) (term : Term)
deriving DecidableEq, Repr

/-- `Solution` of `ast.ts`: assignments in variable order. -/
abbrev Solution := List Assignment

/-- `ProveResult` of `evaluating.ts`: an environment with a cut flag. -/
structure ProveResult where
  env : Env
  cut : Bool

/-- `isNil` of `evaluating.ts`. -/
def isNil : Term → Bool
  | .atom a => a == nilTerm'
  | _ => false
where nilTerm' : String := "nil"

/-- The yield loop of `provePred` over the results of a rule's goal: every
result is re-emitted with the cut flag cleared, and the loop stops right
after the first result whose flag was set. -/
def yieldUntilCut : List ProveResult → List ProveResult
  | [] => []
  | r :: rs => ⟨r.env, false⟩ :: (if r.cut then [] else yieldUntilCut rs)

mutual

/-- `provePred` of `evaluating.ts`, with fuel (one unit per recursive
call; `none` = fuel ran out) and the `nextVarId` counter threaded as the
last argument.  Yielded results are collected eagerly in yield order. -/
def provePredN : Nat → PredProp → Env → Knowledge → Nat → Option (List ProveResult × Nat)
  | 0, _, _, _, _ => none
  | n + 1, p, env, kb, c =>
    if p.pred == CutProp.pred && isNil p.term then some ([⟨env, true⟩], c)
    else if p.pred == TrueProp.pred && isNil p.term then some ([⟨env, false⟩], c)
    else proveRulesN n (Knowledge.rules kb p.pred) p env kb c
termination_by structural n => n

/-- The rule loop of `provePred`: try each rule in order; refresh it with
the next counter value, unify the head, then prove the goal, masking the
cut flag at the rule boundary and stopping when a cut fired. -/
def proveRulesN : Nat → List Rule → PredProp → Env → Knowledge → Nat → Option (List ProveResult × Nat)
  | 0, _, _, _, _, _ => none
  | _ + 1, [], _, _, _, c => some ([], c)
  | n + 1, defaultRule :: rest, p, env, kb, c =>
    let c1 := c + 1
    let rule := defaultRule.refresh (Int.ofNat c1)
    match tryUnifyN n env p.term rule.head.term with
    | none => none
    | some none => proveRulesN n rest p env kb c1
    | some (some env2) =>
      match rule.goal with
      | none =>
        match proveRulesN n rest p env kb c1 with
        | none => none
        | some (l, c2) => some (⟨env2, false⟩ :: l, c2)
      | some goal =>
        match provePropN n goal env2 kb c1 with
        | none => none
        | some (results, c2) =>
          let yielded := yieldUntilCut results
          if results.any (·.cut) then some (yielded, c2)
          else
            match proveRulesN n rest p env kb c2 with
            | none => none
            | some (l, c3) => some (yielded ++ l, c3)
termination_by structural n => n

/-- `proveProp` of `evaluating.ts`: atomic propositions go to `provePred`;
a conjunction proves the left side and, under each resulting environment,
the right side, or-ing the cut flags. -/
def provePropN : Nat → Proposition → Env → Knowledge → Nat → Option (List ProveResult × Nat)
  | 0, _, _, _, _ => none
  | n + 1, .pred p, env, kb, c => provePredN n p env kb c
  | n + 1, .conj l r, env, kb, c =>
    match provePropN n l env kb c with
    | none => none
    | some (lres, c1) => proveConjN n lres r kb c1
termination_by structural n => n

/-- The nested loop of `proveProp` on a conjunction: for each left result,
prove the right conjunct under its environment. -/
def proveConjN : Nat → List ProveResult → Proposition → Knowledge → Nat → Option (List ProveResult × Nat)
  | 0, _, _, _, _ => none
  | _ + 1, [], _, _, c => some ([], c)
  | n + 1, lr :: lrs, r, kb, c =>
    match provePropN n r lr.env kb c with
    | none => none
    | some (rres, c1) =>
      match proveConjN n lrs r kb c1 with
      | none => none
      | some (restRes, c2) =>
        some (rres.map (fun rr => ⟨rr.env, lr.cut || rr.cut⟩) ++ restRes, c2)
termination_by structural n => n

end

/-- `proveCore` of `evaluating.ts`: drop the cut flags. -/
def proveN (n : Nat) (prop : Proposition) (env : Env) (kb : Knowledge) (c : Nat) :
    Option (List Env × Nat) :=
  (provePropN n prop env kb c).map (fun r => (r.1.map ProveResult.env, r.2))

/-- Modelled from the spec: `distinct` of the repository's `iterable.ts`
(whose source is not present) — deduplicate, preserving first-occurrence
order (spec §4.6 step 2). -/
def distinctVars (l : List Var) : List Var :=
  go [] l
where
  /-- Walk the list keeping the variables already seen. -/
  go : List Var → List Var → List Var
    | _, [] => []
    | seen, v :: vs =>
      if seen.contains v then go seen vs else v :: go (v :: seen) vs

/-- The per-variable projection step of `query` in `evaluating.ts`:
substitute the variable; if the result is a variable that is unbound in
the environment, emit the unbound marker under the original source name,
else emit the term. -/
def projectVar (n : Nat) (localEnv : Env) (v : Var) : Option Assignment :=
  match substituteN n localEnv (.var v) with
  | none => none
  | some term =>
    let unbound :=
      match term with
      | .var w => (Env.tryFind localEnv w).isNone
      | _ => false
    some (if unbound then .unbound v.varName else .bound v.varName term)

/-- `query` of `evaluating.ts`, fueled: refresh the proposition with a
fresh id, collect its distinct variables in first-occurrence order, prove
it, and project each resulting environment to a solution. -/
def queryN (n : Nat) (prop : Proposition) (globalEnv : Env) (kb : Knowledge) (c : Nat) :
    Option (List Solution × Nat) :=
  let c1 := c + 1
  let prop' := prop.withVarId (Int.ofNat c1)
  let vars := distinctVars prop'.vars
  match proveN n prop' globalEnv kb c1 with
  | none => none
  | some (envs, c2) =>
    match envs.mapM (fun localEnv => vars.mapM (projectVar n localEnv)) with
    | none => none
    | some solutions => some (solutions, c2)

/-- `ImplProofSystem` of `evaluating.ts`: the facade wrapping a knowledge
base. -/
structure ImplProofSystem where
  knowledge : Knowledge

/-- `ImplProofSystem.assume`: returns a new proof system built from the
extended knowledge base. -/
def ImplProofSystem.assume (s : ImplProofSystem) (r : Rule) : ImplProofSystem :=
  ⟨Knowledge.assume s.knowledge r⟩

/-! ### Concrete knowledge bases for the scenario claims -/

/-- A predicate applied to `nil`, as in `p :- !, q.` style programs. -/
def atomicProp (name : String) : PredProp := ⟨name, nilTerm⟩

/-- The knowledge base of the cut scenario: `p :- !, q.` then `p :- r.`
then `q.` then `r.`, asserted in this order. -/
def cutKB : Knowledge :=
  Knowledge.assumeMany Knowledge.default
    [ ⟨atomicProp "p", some (.conj (.pred CutProp) (.pred (atomicProp "q")))⟩
    , ⟨atomicProp "p", some (.pred (atomicProp "r"))⟩
    , ⟨atomicProp "q", none⟩
    , ⟨atomicProp "r", none⟩ ]

/-- The query variable `X` as emitted by the parser/test harness
(sentinel id `-1`). -/
def srcX : Var := ⟨-1, "x"⟩

/-- The query variable `Y` (sentinel id `-1`). -/
def srcY : Var := ⟨-1, "y"⟩

/-- The syllogism knowledge base: `mortal(X) :- human(X).`,
`human(socrates).`, then `human(plato).`, asserted in this order. -/
def mortalKB : Knowledge :=
  Knowledge.assumeMany Knowledge.default
    [ ⟨⟨"mortal", .var srcX⟩, some (.pred ⟨"human", .var srcX⟩)⟩
    , ⟨⟨"human", .atom "socrates"⟩, none⟩
    , ⟨⟨"human", .atom "plato"⟩, none⟩ ]

/-- The unbound-projection knowledge base: `unknown(X).` then
`unknown(a).`. -/
def unknownKB : Knowledge :=
  Knowledge.assumeMany Knowledge.default
    [ ⟨⟨"unknown", .var srcX⟩, none⟩
    , ⟨⟨"unknown", .atom "a"⟩, none⟩ ]

/-! ### Semantic predicates over the fueled embedding -/

/-- `Subst env t s`: the source's `Env.substitute(env, t)` terminates and
returns `s` (some amount of fuel suffices). -/
def Subst (env : Env) (t s : Term) : Prop :=
  ∃ n, substituteN n env t = some s

/-- `Extends env env'`: every binding present in `env` is present,
unchanged, in `env'`. -/
def Extends (env env' : Env) : Prop :=
  ∀ v t, Env.tryFind env v = some t → Env.tryFind env' v = some t

/-- Environments reachable from the empty environment by (terminating)
`Env.bind` operations. -/
inductive Reachable : Env → Prop where
  | empty : Reachable Env.default
  | bind {env : Env} {n : Nat} {v : Var} {t : Term} {env' : Env} :
      Reachable env → bindN n env v t = some env' → Reachable env'

/-- Whether a term is a variable at its root. -/
def Term.isVarT : Term → Bool
  | .var _ => true
  | _ => false

/-- `ChainReaches env v`: following bindings from `v` through successive
`VarTerm` links reaches an unbound variable or a non-variable term in
finitely many steps (the top-level dereference chain of `substitute`
terminates). -/
inductive ChainReaches (env : Env) : Var → Prop where
  | unbound {v : Var} : Env.tryFind env v = none → ChainReaches env v
  | nonvar {v : Var} {t : Term} :
      Env.tryFind env v = some t → t.isVarT = false → ChainReaches env v
  | step {v w : Var} :
      Env.tryFind env v = some (.var w) → ChainReaches env w → ChainReaches env v

/-- The environment that binds the source variable `x` to `socrates`:
the result of one `bind` on the empty environment (used as the concrete
input of several witnesses). -/
def env1 : Env := Env.insert Env.default srcX (Term.atom "socrates")

/-! ### Scenario claims -/

/-- C2.  Cut prunes alternatives: on the knowledge base
`p :- !, q.`  `p :- r.`  `q.`  `r.`, the query `p` enumerates exactly one
solution (the empty assignment, proved via `q` through the first rule);
`provePred` yields exactly one result across the rule boundary and its cut
flag is `false` (the cut is masked, so it cannot prune the caller's choice
points); and `r` on its own is provable, so the second rule for `p` was
pruned by the cut rather than having failed. -/
theorem claim_cut_prunes_alternatives :
    (queryN 32 (.pred (atomicProp "p")) Env.default cutKB 0).map Prod.fst = some [[]]
    ∧ (provePredN 32 (atomicProp "p") Env.default cutKB 0).map
        (fun x => x.1.map ProveResult.cut) = some [false]
    ∧ (queryN 32 (.pred (atomicProp "r")) Env.default cutKB 0).map Prod.fst = some [[]] :=
  ⟨by decide, by decide, by decide⟩

/-- C7.  Rule-order determinism: with `mortal(X) :- human(X).` and the fact
`human(plato).` asserted after `human(socrates).`, the query `mortal(X)`
yields exactly the two solutions `X = socrates` then `X = plato`, in rule
insertion order. -/
theorem claim_rule_order_determinism :
    (queryN 32 (.pred ⟨"mortal", .var srcX⟩) Env.default mortalKB 0).map Prod.fst =
      some [[.bound "x" (.atom "socrates")], [.bound "x" (.atom "plato")]] := by
  decide

/-- C8.  Unbound projection: with `unknown(X).` then `unknown(a).`, the
query `unknown(Y)` yields first a solution marking `Y` unbound (under its
original source name), then a solution binding `Y` to the atom `a`. -/
theorem claim_unbound_projection :
    (queryN 32 (.pred ⟨"unknown", .var srcY⟩) Env.default unknownKB 0).map Prod.fst =
      some [[.unbound "y"], [.bound "y" (.atom "a")]] := by
  decide

/-! ### Ingest claims -/

/-- A rule whose head has an empty predicate name. -/
def emptyNameRule : Rule := ⟨⟨"", nilTerm⟩, none⟩

/-- C3 counterexample.  `assume` does not reject a rule whose head has an
empty predicate name: the rule is appended to the knowledge base under the
empty name, and no input-validation error exists (`assume` is total and
returns the extended knowledge base). -/
theorem claim_assume_rejects_counterexample :
    Knowledge.rules (Knowledge.assume Knowledge.default emptyNameRule) "" =
      [emptyNameRule] := by
  decide

/-- C3 (amended).  `assume` performs no validation at all: every rule —
including one whose head's predicate name is empty — is accepted and
appended to the rule list of its head predicate name. -/
theorem claim_assume_accepts_all (k : Knowledge) (r : Rule) :
    Knowledge.rules (Knowledge.assume k r) r.head.pred =
      Knowledge.rules k r.head.pred ++ [r] := by
  simp [Knowledge.rules, Knowledge.assume]

/-- C10.  Assume is value-semantic: `Knowledge.assume k r` is a new
knowledge base whose rule list under `r`'s head predicate name is the old
list with `r` appended, and whose list under every other predicate name is
unchanged (the original `k`, being a value of the embedding of this
spread-copying source, is itself untouched); the facade's `assume`
likewise returns a new `ImplProofSystem` wrapping the extended base. -/
theorem claim_assume_persistent :
    (∀ (k : Knowledge) (r : Rule) (p : String),
      Knowledge.rules (Knowledge.assume k r) p =
        if p = r.head.pred then Knowledge.rules k p ++ [r] else Knowledge.rules k p)
    ∧ (∀ (s : ImplProofSystem) (r : Rule),
      (s.assume r).knowledge = Knowledge.assume s.knowledge r) := by
  constructor
  · intro k r p
    by_cases hp : p = r.head.pred
    · subst hp
      simp [Knowledge.rules, Knowledge.assume]
    · simp [Knowledge.rules, Knowledge.assume, hp]
  · intro s r
    rfl

/-- C9.  Binding is local to one (name, id) slot: when `bind` returns, the
lookup of every variable other than the exact pair bound — different name,
or same name with a different id — is unchanged. -/
theorem claim_bind_frame (n : Nat) (env : Env) (v : Var) (term : Term) (env' : Env)
    (h : bindN n env v term = some env') (w : Var)
    (hw : w.varName ≠ v.varName ∨ w.varId ≠ v.varId) :
    Env.tryFind env' w = Env.tryFind env w := by
  have hwv : w ≠ v := by
    rintro rfl
    rcases hw with h' | h' <;> exact h' rfl
  unfold bindN at h
  cases hsub : substituteN n env term with
  | none => rw [hsub] at h; cases h
  | some st =>
    rw [hsub] at h
    dsimp only at h
    by_cases hst : st = Term.var v
    · rw [if_pos hst] at h
      cases h
      rfl
    · rw [if_neg hst] at h
      cases h
      simp [Env.tryFind, Env.insert, hwv]

/-- C9 witness: binding `x` to `socrates` leaves the slot of the
same-named variable with a different id untouched. -/
theorem claim_bind_frame_witness :
    bindN 1 Env.default srcX (Term.atom "socrates") =
      some (Env.insert Env.default srcX (Term.atom "socrates"))
    ∧ ((⟨0, "x"⟩ : Var).varName ≠ srcX.varName ∨ (⟨0, "x"⟩ : Var).varId ≠ srcX.varId)
    ∧ Env.tryFind (Env.insert Env.default srcX (Term.atom "socrates")) ⟨0, "x"⟩ =
        Env.tryFind Env.default ⟨0, "x"⟩ :=
  ⟨rfl, Or.inr (by decide),
    claim_bind_frame 1 Env.default srcX (Term.atom "socrates") _ rfl ⟨0, "x"⟩
      (Or.inr (by decide))⟩

/-! ### Basic lemmas about the fueled substitution -/

/-- Fuel monotonicity: a run of `substitute` that terminates with a given
amount of fuel terminates with the same result under more fuel. -/
theorem substituteN_mono {env : Env} :
    ∀ {n m : Nat} {t s : Term}, n ≤ m → substituteN n env t = some s →
      substituteN m env t = some s := by
  intro n
  induction n with
  | zero => intro m t s _ h; cases h
  | succ n ih =>
    intro m t s hnm h
    obtain ⟨m', rfl⟩ : ∃ m', m = m' + 1 := ⟨m - 1, by omega⟩
    have hnm' : n ≤ m' := by omega
    cases t with
    | var v =>
      simp only [substituteN] at h ⊢
      cases hb : Env.tryFind env v with
      | none => rw [hb] at h; exact h
      | some bound => rw [hb] at h; exact ih hnm' h
    | atom a => simpa [substituteN] using h
    | app f x =>
      simp only [substituteN] at h ⊢
      cases hx : substituteN n env x with
      | none => rw [hx] at h; exact Option.noConfusion h
      | some sx => rw [hx] at h; rw [ih hnm' hx]; exact h
    | cons a b =>
      simp only [substituteN] at h ⊢
      cases ha : substituteN n env a with
      | none =>
        cases hb : substituteN n env b with
        | none => rw [ha, hb] at h; exact Option.noConfusion h
        | some sb => rw [ha, hb] at h; exact Option.noConfusion h
      | some sa =>
        cases hb : substituteN n env b with
        | none => rw [ha, hb] at h; exact Option.noConfusion h
        | some sb => rw [ha, hb] at h; rw [ih hnm' ha, ih hnm' hb]; exact h

/-- `substitute` is deterministic across terminating runs. -/
theorem Subst_det {env : Env} {t s s' : Term}
    (h : Subst env t s) (h' : Subst env t s') : s = s' := by
  obtain ⟨n, hn⟩ := h
  obtain ⟨m, hm⟩ := h'
  have h1 := substituteN_mono (Nat.le_max_left n m) hn
  have h2 := substituteN_mono (Nat.le_max_right n m) hm
  rw [h1] at h2
  cases h2
  rfl

/-- Substituting an atom returns it unchanged. -/
theorem Subst_atom {env : Env} {a : String} {s : Term} :
    Subst env (.atom a) s ↔ s = .atom a := by
  constructor
  · rintro ⟨n, hn⟩
    cases n with
    | zero => cases hn
    | succ n => simp only [substituteN] at hn; cases hn; rfl
  · rintro rfl
    exact ⟨1, rfl⟩

/-- Substituting an unbound variable returns it unchanged. -/
theorem Subst_var_unbound {env : Env} {v : Var} {s : Term}
    (hv : Env.tryFind env v = none) : Subst env (.var v) s ↔ s = .var v := by
  constructor
  · rintro ⟨n, hn⟩
    cases n with
    | zero => cases hn
    | succ n => simp only [substituteN, hv] at hn; cases hn; rfl
  · rintro rfl
    exact ⟨1, by simp only [substituteN, hv]⟩

/-- Substituting a bound variable substitutes its bound term. -/
theorem Subst_var_bound {env : Env} {v : Var} {u s : Term}
    (hv : Env.tryFind env v = some u) : Subst env (.var v) s ↔ Subst env u s := by
  constructor
  · rintro ⟨n, hn⟩
    cases n with
    | zero => cases hn
    | succ n =>
      simp only [substituteN, hv] at hn
      exact ⟨n, hn⟩
  · rintro ⟨n, hn⟩
    exact ⟨n + 1, by simp only [substituteN, hv]; exact hn⟩

/-- Substitution on an application substitutes the argument. -/
theorem Subst_app {env : Env} {f : String} {x s : Term} :
    Subst env (.app f x) s ↔ ∃ sx, Subst env x sx ∧ s = .app f sx := by
  constructor
  · rintro ⟨n, hn⟩
    cases n with
    | zero => cases hn
    | succ n =>
      simp only [substituteN] at hn
      cases hx : substituteN n env x with
      | none => rw [hx] at hn; exact Option.noConfusion hn
      | some sx =>
        rw [hx] at hn
        simp only [Option.map] at hn
        cases hn
        exact ⟨sx, ⟨n, hx⟩, rfl⟩
  · rintro ⟨sx, ⟨n, hn⟩, rfl⟩
    exact ⟨n + 1, by simp only [substituteN, hn, Option.map]⟩

/-- Substitution on a cons cell substitutes both children. -/
theorem Subst_cons {env : Env} {a b s : Term} :
    Subst env (.cons a b) s ↔
      ∃ sa sb, Subst env a sa ∧ Subst env b sb ∧ s = .cons sa sb := by
  constructor
  · rintro ⟨n, hn⟩
    cases n with
    | zero => cases hn
    | succ n =>
      simp only [substituteN] at hn
      cases ha : substituteN n env a with
      | none =>
        cases hb : substituteN n env b with
        | none => rw [ha, hb] at hn; exact Option.noConfusion hn
        | some sb => rw [ha, hb] at hn; exact Option.noConfusion hn
      | some sa =>
        cases hb : substituteN n env b with
        | none => rw [ha, hb] at hn; exact Option.noConfusion hn
        | some sb =>
          rw [ha, hb] at hn
          cases hn
          exact ⟨sa, sb, ⟨n, ha⟩, ⟨n, hb⟩, rfl⟩
  · rintro ⟨sa, sb, ⟨n, hna⟩, ⟨m, hnb⟩, rfl⟩
    refine ⟨max n m + 1, ?_⟩
    have h1 := substituteN_mono (Nat.le_max_left n m) hna
    have h2 := substituteN_mono (Nat.le_max_right n m) hnb
    simp only [substituteN, h1, h2]

/-- Every variable occurring in a substitution result is unbound: the
source's `substitute` dereferences variables until no bound variable is
left anywhere in the term. -/
theorem substituteN_vars_unbound {env : Env} :
    ∀ {n : Nat} {t s : Term}, substituteN n env t = some s →
      ∀ u ∈ s.vars, Env.tryFind env u = none := by
  intro n
  induction n with
  | zero => intro t s h; cases h
  | succ n ih =>
    intro t s h u hu
    cases t with
    | var v =>
      simp only [substituteN] at h
      cases hb : Env.tryFind env v with
      | none =>
        rw [hb] at h
        cases h
        simp only [Term.vars, List.mem_singleton] at hu
        subst hu
        exact hb
      | some bound => rw [hb] at h; exact ih h u hu
    | atom a =>
      simp only [substituteN] at h
      cases h
      simp [Term.vars] at hu
    | app f x =>
      simp only [substituteN] at h
      cases hx : substituteN n env x with
      | none => rw [hx] at h; exact Option.noConfusion h
      | some sx =>
        rw [hx] at h
        simp only [Option.map] at h
        cases h
        exact ih hx u hu
    | cons a b =>
      simp only [substituteN] at h
      cases ha : substituteN n env a with
      | none =>
        cases hb : substituteN n env b with
        | none => rw [ha, hb] at h; exact Option.noConfusion h
        | some sb => rw [ha, hb] at h; exact Option.noConfusion h
      | some sa =>
        cases hb : substituteN n env b with
        | none => rw [ha, hb] at h; exact Option.noConfusion h
        | some sb =>
          rw [ha, hb] at h
          cases h
          simp only [Term.vars, List.mem_append] at hu
          rcases hu with hu | hu
          · exact ih ha u hu
          · exact ih hb u hu

/-- A term all of whose variables are unbound substitutes to itself. -/
theorem Subst_self_of_unbound {env : Env} :
    ∀ {t : Term}, (∀ u ∈ t.vars, Env.tryFind env u = none) → Subst env t t := by
  intro t
  induction t with
  | var v =>
    intro h
    exact (Subst_var_unbound (h v (by simp [Term.vars]))).mpr rfl
  | atom a => intro _; exact Subst_atom.mpr rfl
  | app f x ih =>
    intro h
    exact Subst_app.mpr ⟨x, ih (fun u hu => h u (by simpa [Term.vars] using hu)), rfl⟩
  | cons a b iha ihb =>
    intro h
    refine Subst_cons.mpr ⟨a, b, iha ?_, ihb ?_, rfl⟩
    · exact fun u hu => h u (by simp [Term.vars, hu])
    · exact fun u hu => h u (by simp [Term.vars, hu])

/-! ### Extension lemmas -/

/-- Extension is reflexive. -/
theorem Extends.rfl {env : Env} : Extends env env := fun _ _ h => h

/-- Extension is transitive. -/
theorem Extends.trans {e1 e2 e3 : Env} (h12 : Extends e1 e2) (h23 : Extends e2 e3) :
    Extends e1 e3 := fun v t h => h23 v t (h12 v t h)

/-- Looking up the freshly inserted slot. -/
theorem tryFind_insert_self {env : Env} {v : Var} {t : Term} :
    Env.tryFind (Env.insert env v t) v = some t := by
  simp [Env.tryFind, Env.insert]

/-- Looking up any other slot is unchanged by an insert. -/
theorem tryFind_insert_ne {env : Env} {v : Var} {t : Term} {w : Var} (h : w ≠ v) :
    Env.tryFind (Env.insert env v t) w = Env.tryFind env w := by
  simp [Env.tryFind, Env.insert, h]

/-- Inserting into an unbound slot extends the environment. -/
theorem insert_extends {env : Env} {v : Var} {t : Term}
    (hv : Env.tryFind env v = none) : Extends env (Env.insert env v t) := by
  intro w u hw
  have hwv : w ≠ v := fun h => by rw [h, hv] at hw; cases hw
  rw [tryFind_insert_ne hwv]
  exact hw

/-- Inversion of `bind`: the term was substituted first, and either the
result was the variable itself (insertion refused) or the substituted term
was inserted into the variable's slot. -/
theorem bindN_inv {n : Nat} {env : Env} {v : Var} {t : Term} {env' : Env}
    (h : bindN n env v t = some env') :
    ∃ st, substituteN n env t = some st ∧
      ((st = .var v ∧ env' = env) ∨ (st ≠ .var v ∧ env' = Env.insert env v st)) := by
  unfold bindN at h
  cases hsub : substituteN n env t with
  | none => rw [hsub] at h; cases h
  | some st =>
    rw [hsub] at h
    dsimp only at h
    by_cases hst : st = Term.var v
    · rw [if_pos hst] at h
      cases h
      exact ⟨st, rfl, Or.inl ⟨hst, rfl⟩⟩
    · rw [if_neg hst] at h
      cases h
      exact ⟨st, rfl, Or.inr ⟨hst, rfl⟩⟩

/-- A `bind` on an unbound variable extends the environment. -/
theorem bindN_extends {n : Nat} {env : Env} {v : Var} {t : Term} {env' : Env}
    (hv : Env.tryFind env v = none) (h : bindN n env v t = some env') :
    Extends env env' := by
  obtain ⟨st, _, hcase⟩ := bindN_inv h
  rcases hcase with ⟨_, rfl⟩ | ⟨_, rfl⟩
  · exact Extends.rfl
  · exact insert_extends hv

/-- Unification only adds bindings: the returned environment extends the
input environment (no existing binding is removed or overwritten). -/
theorem tryUnifyN_extends :
    ∀ {n : Nat} {env : Env} {a b : Term} {env' : Env},
      tryUnifyN n env a b = some (some env') → Extends env env' := by
  intro n
  induction n with
  | zero => intro env a b env' h; cases h
  | succ n ih =>
    intro env a b env' h
    cases a with
    | var v =>
      simp only [tryUnifyN] at h
      cases hv : Env.tryFind env v with
      | none =>
        rw [hv] at h
        cases hb : bindN n env v b with
        | none => rw [hb] at h; cases h
        | some e =>
          rw [hb] at h
          simp only [Option.map] at h
          cases h
          exact bindN_extends hv hb
      | some bound =>
        rw [hv] at h
        dsimp only at h
        cases hs : substituteN n env bound with
        | none => rw [hs] at h; cases h
        | some sb => rw [hs] at h; exact ih h
    | atom a0 =>
      cases b with
      | var v =>
        simp only [tryUnifyN] at h
        cases hv : Env.tryFind env v with
        | none =>
          rw [hv] at h
          cases hb : bindN n env v (.atom a0) with
          | none => rw [hb] at h; cases h
          | some e =>
            rw [hb] at h
            simp only [Option.map] at h
            cases h
            exact bindN_extends hv hb
        | some bound =>
          rw [hv] at h
          dsimp only at h
          cases hs : substituteN n env bound with
          | none => rw [hs] at h; cases h
          | some sb => rw [hs] at h; exact ih h
      | atom b0 =>
        simp only [tryUnifyN] at h
        by_cases hab : a0 = b0
        · rw [if_pos hab] at h; cases h; exact Extends.rfl
        · rw [if_neg hab] at h; cases h
      | app g y => simp only [tryUnifyN] at h; cases h
      | cons h2 t2 => simp only [tryUnifyN] at h; cases h
    | app f x =>
      cases b with
      | var v =>
        simp only [tryUnifyN] at h
        cases hv : Env.tryFind env v with
        | none =>
          rw [hv] at h
          cases hb : bindN n env v (.app f x) with
          | none => rw [hb] at h; cases h
          | some e =>
            rw [hb] at h
            simp only [Option.map] at h
            cases h
            exact bindN_extends hv hb
        | some bound =>
          rw [hv] at h
          dsimp only at h
          cases hs : substituteN n env bound with
          | none => rw [hs] at h; cases h
          | some sb => rw [hs] at h; exact ih h
      | atom b0 => simp only [tryUnifyN] at h; cases h
      | app g y =>
        simp only [tryUnifyN] at h
        by_cases hfg : f = g
        · rw [if_pos hfg] at h; exact ih h
        · rw [if_neg hfg] at h; cases h
      | cons h2 t2 => simp only [tryUnifyN] at h; cases h
    | cons h1 t1 =>
      cases b with
      | var v =>
        simp only [tryUnifyN] at h
        cases hv : Env.tryFind env v with
        | none =>
          rw [hv] at h
          cases hb : bindN n env v (.cons h1 t1) with
          | none => rw [hb] at h; cases h
          | some e =>
            rw [hb] at h
            simp only [Option.map] at h
            cases h
            exact bindN_extends hv hb
        | some bound =>
          rw [hv] at h
          dsimp only at h
          cases hs : substituteN n env bound with
          | none => rw [hs] at h; cases h
          | some sb => rw [hs] at h; exact ih h
      | atom b0 => simp only [tryUnifyN] at h; cases h
      | app g y => simp only [tryUnifyN] at h; cases h
      | cons h2 t2 =>
        simp only [tryUnifyN] at h
        cases hh : tryUnifyN n env h1 h2 with
        | none => rw [hh] at h; cases h
        | some o =>
          cases o with
          | none => rw [hh] at h; cases h
          | some env2 =>
            rw [hh] at h
            exact (ih hh).trans (ih h)

/-- If substitution terminates under an extension of an environment, it
terminates (with the same fuel, possibly with a different result) under
the smaller environment. -/
theorem substituteN_anti_extends {env env' : Env} (hext : Extends env env') :
    ∀ {n : Nat} {t r : Term}, substituteN n env' t = some r →
      ∃ s, substituteN n env t = some s := by
  intro n
  induction n with
  | zero => intro t r h; cases h
  | succ n ih =>
    intro t r h
    cases t with
    | var v =>
      cases hv : Env.tryFind env v with
      | none => exact ⟨.var v, by simp only [substituteN, hv]⟩
      | some u =>
        have hv' : Env.tryFind env' v = some u := hext v u hv
        simp only [substituteN, hv'] at h
        obtain ⟨s, hs⟩ := ih h
        exact ⟨s, by simp only [substituteN, hv]; exact hs⟩
    | atom a => exact ⟨.atom a, rfl⟩
    | app f x =>
      simp only [substituteN] at h ⊢
      cases hx : substituteN n env' x with
      | none => rw [hx] at h; exact Option.noConfusion h
      | some rx =>
        obtain ⟨sx, hsx⟩ := ih hx
        exact ⟨.app f sx, by rw [hsx]; rfl⟩
    | cons a b =>
      simp only [substituteN] at h ⊢
      cases ha : substituteN n env' a with
      | none =>
        cases hb : substituteN n env' b with
        | none => rw [ha, hb] at h; exact Option.noConfusion h
        | some rb => rw [ha, hb] at h; exact Option.noConfusion h
      | some ra =>
        cases hb : substituteN n env' b with
        | none => rw [ha, hb] at h; exact Option.noConfusion h
        | some rb =>
          obtain ⟨sa, hsa⟩ := ih ha
          obtain ⟨sb, hsb⟩ := ih hb
          exact ⟨.cons sa sb, by rw [hsa, hsb]⟩

/-- Stability, forward form: when `t` substitutes to `s` under `env` and
`env'` extends `env`, any result of substituting `s` under `env'` is also
a result of substituting `t` under `env'`. -/
theorem Subst_extends_of {env env' : Env} (hext : Extends env env') :
    ∀ {n : Nat} {t s r : Term}, substituteN n env t = some s →
      Subst env' s r → Subst env' t r := by
  intro n
  induction n with
  | zero => intro t s r h; cases h
  | succ n ih =>
    intro t s r h hsr
    cases t with
    | var v =>
      cases hv : Env.tryFind env v with
      | none =>
        simp only [substituteN, hv] at h
        cases h
        exact hsr
      | some u =>
        simp only [substituteN, hv] at h
        have hv' : Env.tryFind env' v = some u := hext v u hv
        exact (Subst_var_bound hv').mpr (ih h hsr)
    | atom a =>
      simp only [substituteN] at h
      cases h
      exact hsr
    | app f x =>
      simp only [substituteN] at h
      cases hx : substituteN n env x with
      | none => rw [hx] at h; exact Option.noConfusion h
      | some sx =>
        rw [hx] at h
        simp only [Option.map] at h
        cases h
        obtain ⟨rx, hrx, rfl⟩ := Subst_app.mp hsr
        exact Subst_app.mpr ⟨rx, ih hx hrx, rfl⟩
    | cons a b =>
      simp only [substituteN] at h
      cases ha : substituteN n env a with
      | none =>
        cases hb : substituteN n env b with
        | none => rw [ha, hb] at h; exact Option.noConfusion h
        | some sb => rw [ha, hb] at h; exact Option.noConfusion h
      | some sa =>
        cases hb : substituteN n env b with
        | none => rw [ha, hb] at h; exact Option.noConfusion h
        | some sb =>
          rw [ha, hb] at h
          cases h
          obtain ⟨ra, rb, hra, hrb, rfl⟩ := Subst_cons.mp hsr
          exact Subst_cons.mpr ⟨ra, rb, ih ha hra, ih hb hrb, rfl⟩

/-- Stability, backward form: when `t` substitutes to `s` under `env` and
`env'` extends `env`, any result of substituting `t` under `env'` is also
a result of substituting `s` under `env'`. -/
theorem Subst_extends_to {env env' : Env} (hext : Extends env env') :
    ∀ {n : Nat} {t s r : Term}, substituteN n env t = some s →
      Subst env' t r → Subst env' s r := by
  intro n
  induction n with
  | zero => intro t s r h; cases h
  | succ n ih =>
    intro t s r h htr
    cases t with
    | var v =>
      cases hv : Env.tryFind env v with
      | none =>
        simp only [substituteN, hv] at h
        cases h
        exact htr
      | some u =>
        simp only [substituteN, hv] at h
        have hv' : Env.tryFind env' v = some u := hext v u hv
        exact ih h ((Subst_var_bound hv').mp htr)
    | atom a =>
      simp only [substituteN] at h
      cases h
      exact htr
    | app f x =>
      simp only [substituteN] at h
      cases hx : substituteN n env x with
      | none => rw [hx] at h; exact Option.noConfusion h
      | some sx =>
        rw [hx] at h
        simp only [Option.map] at h
        cases h
        obtain ⟨rx, hrx, rfl⟩ := Subst_app.mp htr
        exact Subst_app.mpr ⟨rx, ih hx hrx, rfl⟩
    | cons a b =>
      simp only [substituteN] at h
      cases ha : substituteN n env a with
      | none =>
        cases hb : substituteN n env b with
        | none => rw [ha, hb] at h; exact Option.noConfusion h
        | some sb => rw [ha, hb] at h; exact Option.noConfusion h
      | some sa =>
        cases hb : substituteN n env b with
        | none => rw [ha, hb] at h; exact Option.noConfusion h
        | some sb =>
          rw [ha, hb] at h
          cases h
          obtain ⟨ra, rb, hra, hrb, rfl⟩ := Subst_cons.mp htr
          exact Subst_cons.mpr ⟨ra, rb, ih ha hra, ih hb hrb, rfl⟩

/-! ### Unification soundness -/

/-- Unfolding `tryUnify` when the left term is a variable. -/
theorem tryUnifyN_var_left_eq {n : Nat} {env : Env} {v : Var} {b : Term} :
    tryUnifyN (n + 1) env (.var v) b =
      match Env.tryFind env v with
      | none => (bindN n env v b).map some
      | some bound =>
        match substituteN n env bound with
        | none => none
        | some sb => tryUnifyN n env b sb := by
  cases b <;> rfl

/-- Unfolding `tryUnify` when only the right term is a variable. -/
theorem tryUnifyN_var_right_eq {n : Nat} {env : Env} {a : Term} {v : Var}
    (ha : a.isVarT = false) :
    tryUnifyN (n + 1) env a (.var v) =
      match Env.tryFind env v with
      | none => (bindN n env v a).map some
      | some bound =>
        match substituteN n env bound with
        | none => none
        | some sb => tryUnifyN n env a sb := by
  cases a with
  | var w => simp [Term.isVarT] at ha
  | atom a0 => rfl
  | app f x => rfl
  | cons x y => rfl

/-- Inversion of the variable branch of `tryUnify`: either the variable
was unbound and the result came from `bind`, or it was bound and
unification recursed on the substituted bound term. -/
theorem tryUnifyVar_inv {n : Nat} {env : Env} {v : Var} {other : Term} {env' : Env}
    (h : (match Env.tryFind env v with
          | none => (bindN n env v other).map some
          | some bound =>
            match substituteN n env bound with
            | none => none
            | some sb => tryUnifyN n env other sb) = some (some env')) :
    (Env.tryFind env v = none ∧ bindN n env v other = some env')
    ∨ (∃ bound sb, Env.tryFind env v = some bound ∧ substituteN n env bound = some sb ∧
        tryUnifyN n env other sb = some (some env')) := by
  cases hv : Env.tryFind env v with
  | none =>
    rw [hv] at h
    cases hb : bindN n env v other with
    | none => rw [hb] at h; cases h
    | some e =>
      rw [hb] at h
      simp only [Option.map] at h
      cases h
      exact Or.inl ⟨rfl, rfl⟩
  | some bound =>
    rw [hv] at h
    dsimp only at h
    cases hs : substituteN n env bound with
    | none => rw [hs] at h; cases h
    | some sb =>
      rw [hs] at h
      exact Or.inr ⟨bound, sb, rfl, hs, h⟩

/-- Soundness of the variable branch, shared between the left-variable and
right-variable cases of the main induction. -/
theorem tryUnifyVar_sound_aux {n : Nat}
    (ih : ∀ {env : Env} {a b : Term} {env' : Env},
      tryUnifyN n env a b = some (some env') →
      ∀ {ra rb : Term}, Subst env' a ra → Subst env' b rb → ra = rb)
    {env : Env} {v : Var} {other : Term} {env' : Env}
    (hinv : (Env.tryFind env v = none ∧ bindN n env v other = some env')
      ∨ (∃ bound sb, Env.tryFind env v = some bound ∧ substituteN n env bound = some sb ∧
          tryUnifyN n env other sb = some (some env')))
    {rv ro : Term} (hrv : Subst env' (.var v) rv) (hro : Subst env' other ro) :
    rv = ro := by
  rcases hinv with ⟨hv, hb⟩ | ⟨bound, sb, hv, hsb, hrec⟩
  · obtain ⟨st, hsub, hcase⟩ := bindN_inv hb
    rcases hcase with ⟨hst, rfl⟩ | ⟨hne, rfl⟩
    · -- insertion refused: `env' = env` and the substituted term is `Var v`
      have h1 : rv = .var v := (Subst_var_unbound hv).mp hrv
      have h2 : ro = st := Subst_det hro ⟨n, hsub⟩
      rw [h1, h2, hst]
    · -- `env' = insert env v st`
      have hfind : Env.tryFind (Env.insert env v st) v = some st := tryFind_insert_self
      have hrv' : Subst (Env.insert env v st) st rv := (Subst_var_bound hfind).mp hrv
      have hext : Extends env (Env.insert env v st) := insert_extends hv
      have hro' : Subst (Env.insert env v st) st ro := Subst_extends_to hext hsub hro
      exact Subst_det hrv' hro'
  · -- bound variable: recursion on the substituted bound term
    have hext : Extends env env' := tryUnifyN_extends hrec
    have hv' : Env.tryFind env' v = some bound := hext v bound hv
    have hrv' : Subst env' bound rv := (Subst_var_bound hv').mp hrv
    have hrvsb : Subst env' sb rv := Subst_extends_to hext hsb hrv'
    exact (ih hrec hro hrvsb).symm

/-- Unification soundness over terminating runs: a successful unification
makes the two terms substitute to the same term. -/
theorem tryUnifyN_sound :
    ∀ {n : Nat} {env : Env} {a b : Term} {env' : Env},
      tryUnifyN n env a b = some (some env') →
      ∀ {ra rb : Term}, Subst env' a ra → Subst env' b rb → ra = rb := by
  intro n
  induction n with
  | zero => intro env a b env' h; cases h
  | succ n ih =>
    intro env a b env' h ra rb hra hrb
    cases a with
    | var v =>
      rw [tryUnifyN_var_left_eq] at h
      exact tryUnifyVar_sound_aux ih (tryUnifyVar_inv h) hra hrb
    | atom a0 =>
      cases b with
      | var v =>
        rw [@tryUnifyN_var_right_eq n env (Term.atom a0) v rfl] at h
        exact (tryUnifyVar_sound_aux ih (tryUnifyVar_inv h) hrb hra).symm
      | atom b0 =>
        simp only [tryUnifyN] at h
        by_cases hab : a0 = b0
        · rw [if_pos hab] at h
          cases h
          rw [Subst_atom.mp hra, Subst_atom.mp hrb, hab]
        · rw [if_neg hab] at h; cases h
      | app g y => simp only [tryUnifyN] at h; cases h
      | cons h2 t2 => simp only [tryUnifyN] at h; cases h
    | app f x =>
      cases b with
      | var v =>
        rw [@tryUnifyN_var_right_eq n env (Term.app f x) v rfl] at h
        exact (tryUnifyVar_sound_aux ih (tryUnifyVar_inv h) hrb hra).symm
      | atom b0 => simp only [tryUnifyN] at h; cases h
      | app g y =>
        simp only [tryUnifyN] at h
        by_cases hfg : f = g
        · rw [if_pos hfg] at h
          obtain ⟨rx, hrx, rfl⟩ := Subst_app.mp hra
          obtain ⟨ry, hry, rfl⟩ := Subst_app.mp hrb
          rw [ih h hrx hry, hfg]
        · rw [if_neg hfg] at h; cases h
      | cons h2 t2 => simp only [tryUnifyN] at h; cases h
    | cons h1 t1 =>
      cases b with
      | var v =>
        rw [@tryUnifyN_var_right_eq n env (Term.cons h1 t1) v rfl] at h
        exact (tryUnifyVar_sound_aux ih (tryUnifyVar_inv h) hrb hra).symm
      | atom b0 => simp only [tryUnifyN] at h; cases h
      | app g y => simp only [tryUnifyN] at h; cases h
      | cons h2 t2 =>
        simp only [tryUnifyN] at h
        cases hh : tryUnifyN n env h1 h2 with
        | none => rw [hh] at h; cases h
        | some o =>
          cases o with
          | none => rw [hh] at h; cases h
          | some env2 =>
            rw [hh] at h
            obtain ⟨ra1, ra2, hra1, hra2, rfl⟩ := Subst_cons.mp hra
            obtain ⟨rb1, rb2, hrb1, hrb2, rfl⟩ := Subst_cons.mp hrb
            have htails : ra2 = rb2 := ih h hra2 hrb2
            have hext2 : Extends env2 env' := tryUnifyN_extends h
            obtain ⟨m1, hm1⟩ := hra1
            obtain ⟨s1, hs1⟩ := substituteN_anti_extends hext2 hm1
            obtain ⟨m2, hm2⟩ := hrb1
            obtain ⟨s2, hs2⟩ := substituteN_anti_extends hext2 hm2
            have hseq : s1 = s2 := ih hh ⟨m1, hs1⟩ ⟨m2, hs2⟩
            have h1' : Subst env' s1 ra1 := Subst_extends_to hext2 hs1 ⟨m1, hm1⟩
            have h2' : Subst env' s2 rb1 := Subst_extends_to hext2 hs2 ⟨m2, hm2⟩
            rw [hseq] at h1'
            rw [Subst_det h1' h2', htails]

/-! ### Variable-chain termination (no-self-binding invariant) -/

/-- Extending a chain-terminating environment at `v` keeps every chain
terminating, provided the chain from `v` itself terminates in the
extended environment. -/
theorem chainReaches_insert_all {env : Env} {v : Var} {st : Term}
    (hv' : ChainReaches (Env.insert env v st) v) :
    ∀ {w : Var}, ChainReaches env w → ChainReaches (Env.insert env v st) w := by
  intro w hw
  induction hw with
  | @unbound w0 h0 =>
    by_cases hwv : w0 = v
    · subst hwv; exact hv'
    · exact .unbound (by rw [tryFind_insert_ne hwv]; exact h0)
  | @nonvar w0 t0 h0 ht0 =>
    by_cases hwv : w0 = v
    · subst hwv; exact hv'
    · exact .nonvar (by rw [tryFind_insert_ne hwv]; exact h0) ht0
  | @step w0 w1 h0 _ ihw =>
    by_cases hwv : w0 = v
    · subst hwv; exact hv'
    · exact .step (by rw [tryFind_insert_ne hwv]; exact h0) ihw

/-- A terminating `bind` preserves termination of every variable chain:
the inserted term is the fully substituted one, so when it is a variable
that variable is unbound, and the new chain ends one step later. -/
theorem chainReaches_bind {env : Env} {n : Nat} {v : Var} {t : Term} {env' : Env}
    (hall : ∀ w, ChainReaches env w) (h : bindN n env v t = some env') :
    ∀ w, ChainReaches env' w := by
  obtain ⟨st, hsub, hcase⟩ := bindN_inv h
  rcases hcase with ⟨_, rfl⟩ | ⟨hne, rfl⟩
  · exact hall
  · have hv' : ChainReaches (Env.insert env v st) v := by
      cases hst : st with
      | var u =>
        rw [hst] at hsub hne
        have hu : Env.tryFind env u = none :=
          substituteN_vars_unbound hsub u (by simp [Term.vars])
        have huv : u ≠ v := fun h => hne (by rw [h])
        exact ChainReaches.step tryFind_insert_self
          (ChainReaches.unbound (by rw [tryFind_insert_ne huv]; exact hu))
      | atom a => exact ChainReaches.nonvar tryFind_insert_self rfl
      | app f x => exact ChainReaches.nonvar tryFind_insert_self rfl
      | cons a b => exact ChainReaches.nonvar tryFind_insert_self rfl
    exact fun w => chainReaches_insert_all hv' (hall w)

/-- A variable whose chain terminates is never bound to itself. -/
theorem ChainReaches.no_self {env : Env} {v : Var} (h : ChainReaches env v) :
    Env.tryFind env v ≠ some (.var v) := by
  induction h with
  | unbound h0 => rw [h0]; exact fun hc => Option.noConfusion hc
  | nonvar h0 ht0 =>
    rw [h0]
    intro hc
    cases hc
    simp [Term.isVarT] at ht0
  | step h0 _ ih =>
    rw [h0]
    intro hc
    cases hc
    exact ih h0

/-! ### Claims C1, C4, C5, C6 -/

/-- C1.  Unification soundness: whenever `tryUnify(env, a, b)` returns an
environment `env2` (rather than failing), every terminating run of
`substitute(env2, a)` and of `substitute(env2, b)` produces the same term.
(The fuel parameters quantify over terminating runs of the source's
general-recursive functions.) -/
theorem claim_unify_sound (n m k : Nat) (env : Env) (a b : Term) (env2 : Env)
    (ra rb : Term) (hu : tryUnifyN n env a b = some (some env2))
    (ha : substituteN m env2 a = some ra) (hb : substituteN k env2 b = some rb) :
    ra = rb :=
  tryUnifyN_sound hu ⟨m, ha⟩ ⟨k, hb⟩

/-- C1 witness: unifying `X` with `socrates` in the empty environment
yields the environment binding `X`, under which both sides substitute to
`socrates`. -/
theorem claim_unify_sound_witness :
    tryUnifyN 3 Env.default (.var srcX) (.atom "socrates") = some (some env1)
    ∧ substituteN 2 env1 (.var srcX) = some (.atom "socrates")
    ∧ substituteN 1 env1 (.atom "socrates") = some (.atom "socrates")
    ∧ (Term.atom "socrates") = (Term.atom "socrates") :=
  ⟨rfl, rfl, rfl,
    claim_unify_sound 3 2 1 Env.default (.var srcX) (.atom "socrates") env1
      (.atom "socrates") (.atom "socrates") rfl rfl rfl⟩

/-- C4.  No-self-binding and dereference termination: in every environment
reachable from the empty environment by (terminating) `bind` operations,
following bindings from any variable through successive `VarTerm` links
reaches an unbound variable or a non-variable term in finitely many steps
(so the top-level dereference loop of `substitute` terminates on every
variable chain), and in particular no variable is bound to itself. -/
theorem claim_no_self_binding (env : Env) (h : Reachable env) :
    (∀ v, ChainReaches env v) ∧ ∀ v, Env.tryFind env v ≠ some (.var v) := by
  have hchain : ∀ v, ChainReaches env v := by
    induction h with
    | empty => intro v; exact .unbound rfl
    | bind hr hb ih => exact chainReaches_bind ih hb
  exact ⟨hchain, fun v => (hchain v).no_self⟩

/-- C4 witness: the environment obtained by one `bind` from the empty
environment is reachable and its chains terminate. -/
theorem claim_no_self_binding_witness :
    Reachable env1 ∧ ChainReaches env1 srcX :=
  have hr : Reachable env1 :=
    Reachable.bind Reachable.empty
      (show bindN 1 Env.default srcX (Term.atom "socrates") = some env1 from rfl)
  ⟨hr, (claim_no_self_binding env1 hr).1 srcX⟩

/-- C5.  Substitution idempotence: under any environment reachable by
`bind` operations, whenever `substitute(env, t)` terminates with result
`s`, substituting `s` again terminates and returns `s` unchanged. -/
theorem claim_substitute_idem (env : Env) (_hr : Reachable env) (t s : Term)
    (hs : Subst env t s) : Subst env s s := by
  obtain ⟨n, hn⟩ := hs
  exact Subst_self_of_unbound (substituteN_vars_unbound hn)

/-- C5 witness: in the reachable environment binding `X` to `socrates`,
substituting `X` gives `socrates`, which substitutes to itself. -/
theorem claim_substitute_idem_witness :
    Reachable env1 ∧ Subst env1 (.var srcX) (.atom "socrates")
      ∧ Subst env1 (.atom "socrates") (.atom "socrates") :=
  have hr : Reachable env1 :=
    Reachable.bind Reachable.empty
      (show bindN 1 Env.default srcX (Term.atom "socrates") = some env1 from rfl)
  ⟨hr, ⟨2, rfl⟩,
    claim_substitute_idem env1 hr (.var srcX) (.atom "socrates") ⟨2, rfl⟩⟩

/-- C6.  Unification monotonicity: when `tryUnify(env, a, b)` returns
`env2`, the lookup of every variable that is bound in `env` is unchanged
in `env2` — no existing binding is removed or overwritten. -/
theorem claim_unify_monotone (n : Nat) (env : Env) (a b : Term) (env2 : Env)
    (hu : tryUnifyN n env a b = some (some env2)) (v : Var) (t : Term)
    (hv : Env.tryFind env v = some t) :
    Env.tryFind env2 v = Env.tryFind env v := by
  rw [hv]
  exact tryUnifyN_extends hu v t hv

/-- C6 witness: unifying two equal atoms in an environment with one
binding returns it unchanged, preserving the binding of `X`. -/
theorem claim_unify_monotone_witness :
    tryUnifyN 1 env1 (.atom "a") (.atom "a") = some (some env1)
    ∧ Env.tryFind env1 srcX = some (.atom "socrates")
    ∧ Env.tryFind env1 srcX = Env.tryFind env1 srcX :=
  ⟨rfl, rfl,
    claim_unify_monotone 1 env1 (.atom "a") (.atom "a") env1 rfl srcX
      (.atom "socrates") rfl⟩

end Friends
